import Mathlib

/-
  Verification development for vrpm.c (Vivaldi RAM Profile Manager).
  The definitions below are a shallow embedding of the program's
  operations: the archive engine (backup via tar-piped-into-zip, restore
  via per-entry zip extraction), the backup catalog (directory listing
  filtered on the ".zip" substring, bounded at 128 entries for restore),
  latest-backup resolution, retention (clean-backup / purge-backup),
  mount-state gating of the lifecycle commands, and the mirror engine.
-/

namespace Vrpm

/-! ## Strings and paths -/

/-- Byte-level equality of a pattern with the leading part of a list,
the comparison strstr performs at one offset. -/
def leadEqL : List Char → List Char → Bool
  | [], _ => true
  | _ :: _, [] => false
  | a :: as, b :: bs => a == b && leadEqL as bs

/-- Substring occurrence test, modelling C strstr: the pattern occurs at
some offset of the subject. -/
def containsSub (pat : List Char) : List Char → Bool
  | [] => leadEqL pat []
  | c :: r => leadEqL pat (c :: r) || containsSub pat r

/-- The catalog membership test of vrpm.c: strstr(name, ".zip") != NULL.
Any file whose name contains ".zip" as a substring is treated as a
backup archive. -/
def isZipName (s : String) : Bool := containsSub ".zip".toList s.toList

/-- Trailing-slash convention used by perform_restore to recognise
directory entries inside a zip archive. -/
def endsWithSlash (s : String) : Bool :=
  match s.toList.getLast? with
  | some c => c == '/'
  | none => false

/-- Byte-wise lexicographic strict order on names, as strcmp induces
it. -/
def lexLt : List Char → List Char → Bool
  | [], [] => false
  | [], _ :: _ => true
  | _ :: _, [] => false
  | a :: as, b :: bs =>
    if a.toNat < b.toNat then true
    else if b.toNat < a.toNat then false
    else lexLt as bs

/-- Lexicographic strict order on strings. -/
def strLt (a b : String) : Bool := lexLt a.toList b.toList

/-- Split a path on the slash separator, accumulating the current
component in reverse. -/
def splitSlashAux (cur : List Char) : List Char → List String
  | [] => [String.mk cur.reverse]
  | c :: r =>
    if c == '/' then String.mk cur.reverse :: splitSlashAux [] r
    else splitSlashAux (c :: cur) r

/-- The components of a relative path. -/
def splitSlash (s : String) : List String := splitSlashAux [] s.toList

/-- Leading-segment test on path component lists. -/
def leadEqS : List String → List String → Bool
  | [], _ => true
  | _ :: _, [] => false
  | a :: as, b :: bs => a == b && leadEqS as bs

/-- Resolve path components against a reversed stack of already-resolved
components: ".." pops one component, "." and empty components are
skipped, anything else is pushed. -/
def resolveComps (stack : List String) : List String → List String
  | [] => stack.reverse
  | c :: r =>
    if c == ".." then resolveComps (stack.drop 1) r
    else if c == "." || c == "" then resolveComps stack r
    else resolveComps (c :: stack) r

/-- The absolute path at which perform_restore writes an archive entry:
destRoot/entryName, with "." and ".." segments resolved. -/
def resolveUnder (root : List String) (name : String) : List String :=
  resolveComps root.reverse (splitSlash name)

/-- An entry name escapes the destination root when the resolved write
path no longer lies under the root. -/
def escapesRoot (root : List String) (name : String) : Bool :=
  !(leadEqS root (resolveUnder root name))

/-! ## Archive engine -/

/-- One entry of a zip archive: its stored name and its (uncompressed)
data bytes. -/
structure ZEntry where
  name : String
  data : List Nat
  deriving DecidableEq, Repr

/-- A profile directory tree: files as (relative path, bytes) pairs and
the set of (possibly empty) directories as relative paths. -/
structure PTree where
  files : List (String × List Nat)
  dirs : List String
  deriving DecidableEq, Repr

/-- Stand-in for the byte stream `tar -cf - .` produces from a tree: an
executable serialization of all directories and files.  The zip layer
treats it as an opaque stream of bytes read from stdin. -/
def tarBytes (t : PTree) : List Nat :=
  (t.dirs.map (fun d => 5 :: (d.toList.map Char.toNat ++ [0]))).flatten ++
    (t.files.map (fun pf =>
      0 :: (pf.1.toList.map Char.toNat ++ [0]) ++ pf.2.length :: pf.2)).flatten

/-- The backup command of vrpm.c:
`cd SRC && tar -cf - . | pv | zip -q -9 b_path -`.
zip reads the tar stream from stdin and stores it as a single archive
entry named "-"; the produced archive therefore has exactly one entry,
whose name is "-" and whose data is the tar serialization of the tree. -/
def createArchive (t : PTree) : List ZEntry :=
  [⟨"-", tarBytes t⟩]

/-- The tree perform_restore materialises under the destination root:
for each entry, a name with a trailing slash is mkdir-ed as a directory
and every other name is written as a file holding the entry's bytes.
No validation of the entry name is performed. -/
def extractArchiveTree (arc : List ZEntry) : PTree :=
  { files := (arc.filter (fun e => !(endsWithSlash e.name))).map
      (fun e => (e.name, e.data))
  , dirs := (arc.filter (fun e => endsWithSlash e.name)).map
      (fun e => String.mk (e.name.toList.dropLast)) }

/-! ## Backup catalog -/

/-- One directory entry as readdir yields it: its name and the
modification time stat reports for it.  A listing is the sequence of
entries in directory-enumeration (readdir) order. -/
structure DirEnt where
  name : String
  mtime : Nat
  deriving DecidableEq, Repr

/-- The catalog-collection loop of handle_restore:
`while ((dir = readdir(d)) != NULL && count < 128)` with
`if (strstr(dir->d_name, ".zip"))` inside; c is the running count of
entries already stored. -/
def enumFrom (l : List DirEnt) (c : Nat) : List DirEnt :=
  match l with
  | [] => []
  | e :: r =>
    if c < 128 then
      if isZipName e.name then e :: enumFrom r (c + 1) else enumFrom r c
    else []

/-- The selection loop of non-interactive restore:
`for (i = 1; i < count; i++) if (times[i] > times[pick]) pick = i`,
folded over the remaining entries with the current best carried along.
A later entry replaces the best only when its mtime is strictly
greater, so the first entry attaining the maximum wins. -/
def bestFold (b : DirEnt) : List DirEnt → DirEnt
  | [] => b
  | e :: r => bestFold (if e.mtime > b.mtime then e else b) r

/-- Latest-backup resolution as handle_restore(0) performs it on the
collected catalog. -/
def latestRestore : List DirEnt → Option DirEnt
  | [] => none
  | e :: r => some (bestFold e r)

/-- Latest resolution as the spec words it: the entry with the maximum
modification time, ties broken by lexicographically greatest filename.
This definition follows the specification text and is compared against
the one embedded from the source. -/
def latestLexSpec : List DirEnt → Option DirEnt
  | [] => none
  | e :: r =>
    some (r.foldl (fun b x =>
      if x.mtime > b.mtime || (x.mtime == b.mtime && strLt b.name x.name)
      then x else b) e)

/-- The backup catalog a directory listing induces: the entries whose
names contain ".zip". -/
def catOf (listing : List DirEnt) : List DirEnt :=
  listing.filter (fun e => isZipName e.name)

/-- One step of the latest-scan of handle_clean_backups, carried on a
(name, mtime) pair starting from the sentinel ("", 0). -/
def cleanStep (b : String × Nat) (e : DirEnt) : String × Nat :=
  if e.mtime > b.2 then (e.name, e.mtime) else b

/-- The first pass of handle_clean_backups over the directory listing:
non-zip names are skipped, and a strictly greater mtime replaces the
carried (latest, ltime) pair, which starts as ("", 0). -/
def cleanKeptName (listing : List DirEnt) : String :=
  (listing.foldl (fun b e => if isZipName e.name then cleanStep b e else b)
    ("", 0)).1

/-- The deletion predicate of the second pass of handle_clean_backups:
strstr(name, ".zip") and strcmp(name, latest) != 0. -/
def cleanRemoves (listing : List DirEnt) (e : DirEnt) : Bool :=
  isZipName e.name && e.name != cleanKeptName listing

/-- Directory contents surviving handle_clean_backups. -/
def cleanSurvivors (listing : List DirEnt) : List DirEnt :=
  listing.filter (fun e => !cleanRemoves listing e)

/-- Number of files handle_clean_backups removes. -/
def cleanDeleted (listing : List DirEnt) : Nat :=
  (listing.filter (cleanRemoves listing)).length

/-- Directory contents surviving handle_purge_backups: every entry whose
name contains ".zip" is removed. -/
def purgeSurvivors (listing : List DirEnt) : List DirEnt :=
  listing.filter (fun e => !isZipName e.name)

/-- The deleted_count handle_purge_backups reports. -/
def purgeCount (listing : List DirEnt) : Nat :=
  (listing.filter (fun e => isZipName e.name)).length

/-- handle_purge_backups: a declined confirmation or a missing backup
directory deletes nothing; otherwise every .zip entry is removed and
counted. -/
def runPurge (confirmYes dirExists : Bool) (listing : List DirEnt) :
    List DirEnt × Nat :=
  if !confirmYes then (listing, 0)
  else if !dirExists then (listing, 0)
  else (purgeSurvivors listing, purgeCount listing)

/-! ## Interactive selection -/

/-- C isspace over the default locale: space, tab, newline, vertical
tab, form feed, carriage return. -/
def isSpaceC (c : Char) : Bool :=
  c == ' ' || c == '\t' || c == '\n' ||
    c == Char.ofNat 11 || c == Char.ofNat 12 || c == '\x0d'

/-- Decimal-digit accumulation of atoi: consume digits, stop at the
first non-digit. -/
def atoiDigits : List Char → Nat → Nat
  | [], acc => acc
  | c :: r, acc =>
    if '0' ≤ c && c ≤ '9' then atoiDigits r (acc * 10 + (c.toNat - 48))
    else acc

/-- Skip the leading whitespace atoi ignores. -/
def skipSpaces : List Char → List Char
  | [] => []
  | c :: r => if isSpaceC c then skipSpaces r else c :: r

/-- C atoi on the characters of the input line: optional sign after
leading whitespace, then decimal digits; 0 when no digits follow. -/
def atoiL (s : List Char) : Int :=
  match skipSpaces s with
  | '-' :: r => -(atoiDigits r 0 : Int)
  | '+' :: r => (atoiDigits r 0 : Int)
  | r => (atoiDigits r 0 : Int)

/-- atoi applied to the fgets buffer. -/
def atoiS (s : String) : Int := atoiL s.toList

/-- The cancel test of interactive restore:
`input[0] == 'x' || input[0] == 'X'`. -/
def headIsCancel (s : String) : Bool :=
  match s.toList with
  | [] => false
  | c :: _ => c == 'x' || c == 'X'

/-- The listing loop of interactive restore, printing entry i of the
catalog with index i+1: the list of (displayed index, filename) pairs,
with the counter carried exactly as the C for-loop does. -/
def presentLoop (i : Nat) : List DirEnt → List (Nat × String)
  | [] => []
  | e :: r => (i + 1, e.name) :: presentLoop (i + 1) r

/-- The 1-based menu handle_restore(1) presents for a catalog. -/
def presentList (cat : List DirEnt) : List (Nat × String) :=
  presentLoop 0 cat

/-! ## Lifecycle commands -/

/-- Filesystem mutations a command performs, in order.  Shelled-out
commands of vrpm.c are modelled as the mutation they request. -/
inductive Eff
  | mkdirRam
  | rsyncDiskToRam
  | mountBind
  | unmountProfile
  | rsyncRamToDisk
  | rmRam
  | mkdirBackupDir
  | archiveWrite
  | extractZip (name : String)
  deriving DecidableEq, Repr

/-- Outcome of handle_restore: which message path the call took, or
which archive it handed to perform_restore. -/
inductive ROut
  | notMounted
  | dirNotFound
  | noBackups
  | eofInput
  | cancelled
  | invalidSelection
  | restored (name : String)
  deriving DecidableEq, Repr

/-- handle_restore of vrpm.c.  Guards in source order: mount check,
opendir, catalog collection (bounded at 128), empty-catalog check;
then either the interactive selection (cancel token, atoi range check)
or the latest-backup scan, and finally perform_restore on the pick. -/
def handleRestore (interactive mounted dirExists : Bool)
    (listing : List DirEnt) (input : Option String) : ROut × List Eff :=
  if !mounted then (.notMounted, [])
  else if !dirExists then (.dirNotFound, [])
  else
    match enumFrom listing 0 with
    | [] => (.noBackups, [])
    | e :: r =>
      if interactive then
        match input with
        | none => (.eofInput, [])
        | some s =>
          if headIsCancel s then (.cancelled, [])
          else
            let pick := atoiS s
            if pick < 1 ∨ pick > ((e :: r).length : Int) then
              (.invalidSelection, [])
            else
              let chosen := (e :: r).getD (pick - 1).toNat ⟨"", 0⟩
              (.restored chosen.name, [.extractZip chosen.name])
      else
        let m := bestFold e r
        (.restored m.name, [.extractZip m.name])

/-- Environment facts the lifecycle guards consult. -/
structure Env where
  rsyncInstalled : Bool
  mounted : Bool
  vivaldiRunning : Bool
  confirmSave : Bool
  umountOk : Bool
  deriving DecidableEq, Repr

/-- The --load branch of main: missing rsync exits 1 before anything
else; an already-mounted profile is reported and exits 0 with no
mutation; otherwise the RAM directory is created, the profile rsynced
into it and the bind mount attempted (main returns 0 in both mount
outcomes, only the message differs). -/
def runLoad (env : Env) : Nat × List Eff :=
  if !env.rsyncInstalled then (1, [])
  else if env.mounted then (0, [])
  else (0, [.mkdirRam, .rsyncDiskToRam, .mountBind])

/-- handle_save as invoked from main (which returns 0 after it): an
unmounted profile is reported and nothing happens; a declined
confirmation while Vivaldi runs does nothing; a failed umount leaves
the filesystem unchanged; otherwise unmount, rsync RAM to disk and
remove the RAM copy. -/
def runSave (env : Env) : Nat × List Eff :=
  if !env.mounted then (0, [])
  else if env.vivaldiRunning && !env.confirmSave then (0, [])
  else if !env.umountOk then (0, [])
  else (0, [.unmountProfile, .rsyncRamToDisk, .rmRam])

/-- The --backup branch of main: an unmounted profile is refused with
exit code 1; otherwise the backup directory is created and the
timestamped archive written. -/
def runBackup (env : Env) : Nat × List Eff :=
  if !env.mounted then (1, [])
  else (0, [.mkdirBackupDir, .archiveWrite])

/-! ## Mirror engine -/

/-- A regular file as the mirror engine sees it: modification time and
content bytes; its size is the content length. -/
structure MFile where
  mtime : Nat
  content : List Nat
  deriving DecidableEq, Repr

/-- Lookup of a path in a tree given as an association list of
(relative path, file) pairs. -/
def lookupT (l : List (String × MFile)) (p : String) : Option MFile :=
  match l with
  | [] => none
  | q :: r => if q.1 == p then some q.2 else lookupT r p

/-- The change test of the mirror engine: an entry is unchanged when
modification time and size agree (content is not compared). -/
def sameMeta (a b : MFile) : Bool :=
  a.mtime == b.mtime && a.content.length == b.content.length

/-- The file the mirror engine leaves at a source path: the unchanged
destination file when modification time and size agree, otherwise a
fresh copy of the source file. -/
def mirrorPick (dst : List (String × MFile)) (pf : String × MFile) : MFile :=
  match lookupT dst pf.1 with
  | some g => if sameMeta pf.2 g then g else pf.2
  | none => pf.2

/-- Modelled from the spec: the mirror engine of §4.2 (the program
delegates it wholly to `rsync -a --delete`, whose algorithm is not in
src/).  The resulting destination tree: every source entry missing or
differing (by modification time and size) at the destination is copied
from the source, an unchanged destination entry is kept as it is, and
every destination entry with no corresponding source entry is
deleted. -/
def mirrorTree (src dst : List (String × MFile)) : List (String × MFile) :=
  src.map (fun pf =>
    match lookupT dst pf.1 with
    | some g => if sameMeta pf.2 g then (pf.1, g) else (pf.1, pf.2)
    | none => (pf.1, pf.2))

/-- Modelled from the spec: the number of file copies one mirror
invocation performs — the source entries missing or differing at the
destination. -/
def mirrorCopies (src dst : List (String × MFile)) : Nat :=
  (src.filter (fun pf =>
    match lookupT dst pf.1 with
    | some g => !sameMeta pf.2 g
    | none => true)).length

/-! ## Lemmas about the latest-backup scan -/

theorem bestFold_mem (l : List DirEnt) : ∀ b : DirEnt, bestFold b l ∈ b :: l := by
  induction l with
  | nil => intro b; simp [bestFold]
  | cons e r ih =>
    intro b
    by_cases h : e.mtime > b.mtime
    · have := ih e
      simp only [bestFold, if_pos h]
      rcases List.mem_cons.mp this with h1 | h1
      · simp [h1]
      · simp [List.mem_cons.mpr (Or.inr h1)]
    · have := ih b
      simp only [bestFold, if_neg h]
      rcases List.mem_cons.mp this with h1 | h1
      · simp [h1]
      · simp [List.mem_cons.mpr (Or.inr h1)]

theorem bestFold_base_le (l : List DirEnt) :
    ∀ b : DirEnt, b.mtime ≤ (bestFold b l).mtime := by
  induction l with
  | nil => intro b; simp [bestFold]
  | cons e r ih =>
    intro b
    by_cases h : e.mtime > b.mtime
    · simp only [bestFold, if_pos h]
      exact le_of_lt (lt_of_lt_of_le h (ih e))
    · simp only [bestFold, if_neg h]
      exact ih b

theorem bestFold_is_max (l : List DirEnt) :
    ∀ b : DirEnt, ∀ x ∈ l, x.mtime ≤ (bestFold b l).mtime := by
  induction l with
  | nil => intro b x hx; simp at hx
  | cons e r ih =>
    intro b x hx
    rcases List.mem_cons.mp hx with h1 | h1
    · subst h1
      by_cases h : x.mtime > b.mtime
      · simp only [bestFold, if_pos h]
        exact bestFold_base_le r x
      · simp only [bestFold, if_neg h]
        exact le_trans (le_of_not_lt h) (bestFold_base_le r b)
    · by_cases h : e.mtime > b.mtime
      · simp only [bestFold, if_pos h]
        exact ih e x h1
      · simp only [bestFold, if_neg h]
        exact ih b x h1

theorem bestFold_first (l : List DirEnt) :
    ∀ b : DirEnt, ∃ pre post, b :: l = pre ++ bestFold b l :: post ∧
      ∀ x ∈ pre, x.mtime < (bestFold b l).mtime := by
  induction l with
  | nil =>
    intro b
    exact ⟨[], [], by simp [bestFold], by simp⟩
  | cons e r ih =>
    intro b
    by_cases h : e.mtime > b.mtime
    · obtain ⟨pre, post, heq, hlt⟩ := ih e
      refine ⟨b :: pre, post, ?_, ?_⟩
      · simp only [bestFold, if_pos h]
        simpa using congrArg (List.cons b) heq
      · intro x hx
        rcases List.mem_cons.mp hx with h1 | h1
        · subst h1
          simp only [bestFold, if_pos h]
          exact lt_of_lt_of_le h (bestFold_base_le r e)
        · have := hlt x h1
          simpa [bestFold, if_pos h] using this
    · have hunf : bestFold b (e :: r) = bestFold b r := by
        simp [bestFold, if_neg h]
      obtain ⟨pre, post, heq, hlt⟩ := ih b
      cases pre with
      | nil =>
        simp only [List.nil_append] at heq
        have hb : bestFold b r = b := ((List.cons.injEq _ _ _ _).mp heq).1.symm
        refine ⟨[], e :: r, ?_, by simp⟩
        rw [List.nil_append, hunf, hb]
      | cons p pre' =>
        have hpb : p = b := ((List.cons.injEq _ _ _ _).mp heq).1.symm
        have hrest : r = pre' ++ bestFold b r :: post :=
          ((List.cons.injEq _ _ _ _).mp heq).2
        have hblt : b.mtime < (bestFold b r).mtime := by
          have := hlt p (by simp)
          rwa [hpb] at this
        refine ⟨b :: e :: pre', post, ?_, ?_⟩
        · rw [hunf]
          conv_lhs => rw [hrest]
          simp
        · intro x hx
          rw [hunf]
          rcases List.mem_cons.mp hx with h1 | h1
          · subst h1
            exact hblt
          rcases List.mem_cons.mp h1 with h2 | h2
          · subst h2
            exact lt_of_le_of_lt (le_of_not_lt h) hblt
          · have := hlt x (List.mem_cons_of_mem p h2)
            exact this

/-! ## Lemmas relating the clean-backup scan to the restore scan -/

theorem foldl_cleanStep_eq (l : List DirEnt) :
    ∀ b : DirEnt, l.foldl cleanStep (b.name, b.mtime) =
      ((bestFold b l).name, (bestFold b l).mtime) := by
  induction l with
  | nil => intro b; simp [bestFold]
  | cons e r ih =>
    intro b
    by_cases h : e.mtime > b.mtime
    · simp only [List.foldl_cons, cleanStep, bestFold, if_pos h]
      exact ih e
    · simp only [List.foldl_cons, cleanStep, bestFold, if_neg h]
      exact ih b

theorem foldl_guard_filter (l : List DirEnt) :
    ∀ b : String × Nat,
      l.foldl (fun b e => if isZipName e.name then cleanStep b e else b) b =
        (l.filter (fun e => isZipName e.name)).foldl cleanStep b := by
  induction l with
  | nil => intro b; simp
  | cons e r ih =>
    intro b
    by_cases h : isZipName e.name
    · simp [List.foldl_cons, h, ih]
    · simp [List.foldl_cons, h, ih]

theorem cleanKeptName_of_cat (listing : List DirEnt) (e : DirEnt)
    (r : List DirEnt) (hc : catOf listing = e :: r) (hm : 0 < e.mtime) :
    cleanKeptName listing = (bestFold e r).name := by
  unfold cleanKeptName
  rw [foldl_guard_filter]
  have : listing.filter (fun e => isZipName e.name) = e :: r := hc
  rw [this]
  simp only [List.foldl_cons]
  have hstep : cleanStep ("", 0) e = (e.name, e.mtime) := by
    simp [cleanStep, hm]
  rw [hstep, foldl_cleanStep_eq]

/-! ## Generic list lemmas -/

theorem length_filter_split {α : Type} (p : α → Bool) (l : List α) :
    (l.filter p).length + (l.filter (fun x => !p x)).length = l.length := by
  induction l with
  | nil => simp
  | cons a t ih =>
    by_cases h : p a
    · simp [List.filter_cons, h, ← ih]
      omega
    · simp [List.filter_cons, h, ← ih]
      omega

theorem filter_name_single (l : List DirEnt) (m : DirEnt)
    (hn : (l.map DirEnt.name).Nodup) (hm : m ∈ l) :
    l.filter (fun e => e.name == m.name) = [m] := by
  induction l with
  | nil => simp at hm
  | cons a t ih =>
    simp only [List.map_cons, List.nodup_cons] at hn
    obtain ⟨hna, hnt⟩ := hn
    rcases List.mem_cons.mp hm with h1 | h1
    · have hnone : t.filter (fun e => e.name == m.name) = [] := by
        rw [List.filter_eq_nil_iff]
        intro x hx hbeq
        have hx2 : a.name = x.name := by
          rw [beq_iff_eq.mp hbeq, h1]
        exact hna (hx2 ▸ List.mem_map.mpr ⟨x, hx, rfl⟩)
      have hbeq : (a.name == m.name) = true := by
        rw [h1]
        exact beq_self_eq_true _
      have hcons : List.filter (fun e => e.name == m.name) (a :: t) =
          a :: List.filter (fun e => e.name == m.name) t := by
        simp [List.filter_cons, hbeq]
      rw [hcons, hnone, h1]
    · have hne : (a.name == m.name) = false := by
        rw [beq_eq_false_iff_ne]
        intro heq
        exact hna (heq ▸ List.mem_map.mpr ⟨m, h1, rfl⟩)
      simp only [List.filter_cons, hne]
      simp only [Bool.false_eq_true, if_false]
      exact ih hnt h1

/-! ## Lemmas about the bounded catalog collection -/

theorem enumFrom_eq_take (l : List DirEnt) :
    ∀ c : Nat, enumFrom l c = (catOf l).take (128 - c) := by
  induction l with
  | nil => intro c; simp [enumFrom, catOf]
  | cons e r ih =>
    intro c
    by_cases hc : c < 128
    · by_cases hz : isZipName e.name
      · have hsub : 128 - c = (128 - (c + 1)) + 1 := by omega
        simp only [enumFrom, if_pos hc, if_pos hz, catOf, List.filter_cons, hz,
          if_pos]
        rw [hsub, List.take_succ_cons, ih (c + 1)]
        rfl
      · simp only [enumFrom, if_pos hc, hz, Bool.false_eq_true, if_false,
          catOf, List.filter_cons]
        rw [ih c]
        rfl
    · have hsub : 128 - c = 0 := by omega
      simp only [enumFrom, if_neg hc, hsub, List.take_zero]

/-! ## Lemmas about the interactive menu -/

theorem presentLoop_fst (l : List DirEnt) :
    ∀ i : Nat, (presentLoop i l).map Prod.fst = List.range' (i + 1) l.length := by
  induction l with
  | nil => intro i; simp [presentLoop]
  | cons e r ih =>
    intro i
    simp only [presentLoop, List.map_cons, List.length_cons, List.range'_succ]
    rw [ih (i + 1)]

/-! ## Lemmas about the mirror engine -/

theorem sameMeta_refl (f : MFile) : sameMeta f f = true := by
  simp [sameMeta]

theorem sameMeta_mirrorPick (dst : List (String × MFile)) (pf : String × MFile) :
    sameMeta pf.2 (mirrorPick dst pf) = true := by
  unfold mirrorPick
  cases h : lookupT dst pf.1 with
  | none => exact sameMeta_refl _
  | some g =>
    by_cases hs : sameMeta pf.2 g
    · simp [hs]
    · simp only [hs, Bool.false_eq_true, if_false]
      exact sameMeta_refl _

theorem mirrorTree_eq_map (src dst : List (String × MFile)) :
    mirrorTree src dst = src.map (fun pf => (pf.1, mirrorPick dst pf)) := by
  unfold mirrorTree
  apply List.map_congr_left
  intro pf _
  unfold mirrorPick
  cases lookupT dst pf.1 with
  | none => rfl
  | some g =>
    by_cases hs : sameMeta pf.2 g
    · simp [hs]
    · simp [hs]

theorem lookupT_map_of_nodup (src : List (String × MFile))
    (G : String × MFile → MFile) (hn : (src.map Prod.fst).Nodup) :
    ∀ pf ∈ src, lookupT (src.map (fun q => (q.1, G q))) pf.1 = some (G pf) := by
  induction src with
  | nil => intro pf h; simp at h
  | cons q r ih =>
    simp only [List.map_cons, List.nodup_cons] at hn
    intro pf hpf
    rcases List.mem_cons.mp hpf with h1 | h1
    · subst h1
      simp [lookupT]
    · by_cases hq : q.1 == pf.1
      · exfalso
        apply hn.1
        rw [(by simpa using hq : q.1 = pf.1)]
        exact List.mem_map.mpr ⟨pf, h1, rfl⟩
      · simp only [List.map_cons, lookupT, hq, Bool.false_eq_true, if_false]
        exact ih hn.2 pf h1

/-! ## Claim theorems -/

/-- C1: the round-trip property of the archive engine fails on the code.
The backup command pipes a tar stream into zip reading stdin, so the
produced archive holds a single entry named "-" whose data is the tar
serialization of the tree; extraction writes that entry as a literal
file named "-" instead of reproducing the tree.  Evaluated here at the
failing input: a profile tree with the single file a.txt. -/
theorem backup_restore_roundtrip_fails :
    extractArchiveTree (createArchive ⟨[("a.txt", [1])], []⟩) ≠
      (⟨[("a.txt", [1])], []⟩ : PTree) ∧
    (extractArchiveTree (createArchive ⟨[("a.txt", [1])], []⟩)).files.map
      Prod.fst = ["-"] := by
  decide

/-- C2 counterexample: the claim that every entry escaping the
destination root is rejected before anything is written is false: the
archive whose single entry is named "../evil" resolves outside the
destination root, yet extraction honours it and writes its bytes. -/
theorem traversal_entry_honored_cex :
    escapesRoot ["home", "user", ".config", "vivaldi"] "../evil" = true ∧
    ("../evil", [7]) ∈ (extractArchiveTree [⟨"../evil", [7]⟩]).files := by
  decide

/-- C2 amended: extraction performs no path validation at all — every
file entry of the archive, including any whose relative path contains
parent-directory traversal and escapes the destination root, is honoured
and written under destRoot/name; there is no UnsafeArchiveEntry
rejection. -/
theorem extract_honors_every_file_entry (arc : List ZEntry) (e : ZEntry)
    (he : e ∈ arc) (hf : endsWithSlash e.name = false) :
    (e.name, e.data) ∈ (extractArchiveTree arc).files := by
  unfold extractArchiveTree
  exact List.mem_map.mpr ⟨e, List.mem_filter.mpr ⟨he, by simp [hf]⟩, rfl⟩

/-- C2 witness: the amended theorem at a concrete traversal entry. -/
theorem extract_honors_every_file_entry_witness :
    ("../escape", [9]) ∈ (extractArchiveTree [⟨"../escape", [9]⟩]).files :=
  extract_honors_every_file_entry [⟨"../escape", [9]⟩] ⟨"../escape", [9]⟩
    (by decide) (by decide)

/-- C3 counterexample: on a catalog of two entries sharing the maximum
modification time, the code returns the first entry in enumeration
order ("a.zip"), while the spec-worded resolution returns the
lexicographically greatest filename ("b.zip"). -/
theorem latest_tiebreak_cex :
    latestRestore [⟨"a.zip", 5⟩, ⟨"b.zip", 5⟩] = some ⟨"a.zip", 5⟩ ∧
    latestLexSpec [⟨"a.zip", 5⟩, ⟨"b.zip", 5⟩] = some ⟨"b.zip", 5⟩ ∧
    strLt "a.zip" "b.zip" = true ∧
    (⟨"b.zip", 5⟩ : DirEnt) ∈ [(⟨"a.zip", 5⟩ : DirEnt), ⟨"b.zip", 5⟩] := by
  decide

/-- C3 amended: the latest-backup resolution used by non-interactive
restore returns an entry with the maximum modification time, and when
several entries share the maximum it returns the first such entry in
directory-enumeration order (not the lexicographically greatest
filename); the clean-backup scan resolves the same entry's name. -/
theorem latest_first_of_max (e : DirEnt) (r : List DirEnt)
    (hm : ∀ x ∈ e :: r, 0 < x.mtime) :
    latestRestore (e :: r) = some (bestFold e r) ∧
    bestFold e r ∈ e :: r ∧
    (∀ x ∈ e :: r, x.mtime ≤ (bestFold e r).mtime) ∧
    (∃ pre post, e :: r = pre ++ bestFold e r :: post ∧
      ∀ x ∈ pre, x.mtime < (bestFold e r).mtime) ∧
    (∀ listing, catOf listing = e :: r →
      cleanKeptName listing = (bestFold e r).name) := by
  refine ⟨rfl, bestFold_mem r e, ?_, bestFold_first r e, ?_⟩
  · intro x hx
    rcases List.mem_cons.mp hx with h1 | h1
    · subst h1
      exact bestFold_base_le r x
    · exact bestFold_is_max r e x h1
  · intro listing hc
    exact cleanKeptName_of_cat listing e r hc (hm e (by simp))

/-- C3 witness: the amended theorem at a concrete two-entry catalog. -/
theorem latest_first_of_max_witness :
    latestRestore [⟨"a.zip", 7⟩, ⟨"b.zip", 5⟩] =
      some (bestFold ⟨"a.zip", 7⟩ [⟨"b.zip", 5⟩]) :=
  (latest_first_of_max ⟨"a.zip", 7⟩ [⟨"b.zip", 5⟩] (by decide)).1

/-- C4: mirror idempotence and exactness.  A second mirror of the same
source over the freshly mirrored destination performs zero file copies,
and mirroring into an empty destination reproduces the source tree
exactly. -/
theorem mirror_idempotent_and_exact (src dst : List (String × MFile))
    (hn : (src.map Prod.fst).Nodup) :
    mirrorCopies src (mirrorTree src dst) = 0 ∧ mirrorTree src [] = src := by
  constructor
  · rw [mirrorTree_eq_map]
    unfold mirrorCopies
    rw [List.length_eq_zero, List.filter_eq_nil_iff]
    intro pf hpf
    rw [lookupT_map_of_nodup src (mirrorPick dst) hn pf hpf]
    simp [sameMeta_mirrorPick]
  · unfold mirrorTree
    simp [lookupT]

/-- C4 witness: the mirror theorem at a concrete two-file tree and a
nonempty unrelated destination. -/
theorem mirror_idempotent_and_exact_witness :
    mirrorCopies [("a.txt", ⟨1, [7]⟩), ("sub/b.txt", ⟨2, [1, 2]⟩)]
      (mirrorTree [("a.txt", ⟨1, [7]⟩), ("sub/b.txt", ⟨2, [1, 2]⟩)]
        [("old.txt", ⟨9, [3]⟩)]) = 0 ∧
    mirrorTree [("a.txt", ⟨1, [7]⟩), ("sub/b.txt", ⟨2, [1, 2]⟩)] [] =
      [("a.txt", ⟨1, [7]⟩), ("sub/b.txt", ⟨2, [1, 2]⟩)] :=
  mirror_idempotent_and_exact _ [("old.txt", ⟨9, [3]⟩)] (by decide)

/-- C5: mount-state gating.  Load when already mounted and save when
not mounted are reported no-ops ending with exit code 0 and no
filesystem mutation; backup when not mounted refuses with exit code 1
and no mutation; restore when not mounted refuses before touching the
catalog or the filesystem. -/
theorem mount_state_gating (env1 env2 env3 : Env) (interactive dirExists : Bool)
    (listing : List DirEnt) (input : Option String) :
    (env1.rsyncInstalled = true → env1.mounted = true → runLoad env1 = (0, [])) ∧
    (env2.mounted = false → runSave env2 = (0, [])) ∧
    (env3.mounted = false → runBackup env3 = (1, [])) ∧
    handleRestore interactive false dirExists listing input =
      (ROut.notMounted, []) := by
  refine ⟨?_, ?_, ?_, rfl⟩
  · intro h1 h2
    simp [runLoad, h1, h2]
  · intro h
    simp [runSave, h]
  · intro h
    simp [runBackup, h]

/-- C5 witness: the gating theorem at concrete environments. -/
theorem mount_state_gating_witness :
    runLoad ⟨true, true, false, false, true⟩ = (0, []) ∧
    runSave ⟨true, false, false, false, true⟩ = (0, []) ∧
    runBackup ⟨true, false, false, false, true⟩ = (1, []) ∧
    handleRestore false false true [⟨"a.zip", 1⟩] none = (ROut.notMounted, []) := by
  have h := mount_state_gating ⟨true, true, false, false, true⟩
    ⟨true, false, false, false, true⟩ ⟨true, false, false, false, true⟩
    false true [⟨"a.zip", 1⟩] none
  exact ⟨h.1 rfl rfl, h.2.1 rfl, h.2.2.1 rfl, h.2.2.2⟩

/-- C6: clean-backup keeps exactly the latest.  On an empty catalog it
deletes nothing and changes nothing; on a nonempty catalog exactly one
entry survives — the maximum-mtime entry the scan resolves — and
count - 1 entries are deleted (in particular a one-entry catalog
deletes zero). -/
theorem clean_backup_keeps_latest (listing : List DirEnt)
    (hn : ((catOf listing).map DirEnt.name).Nodup)
    (hm : ∀ x ∈ catOf listing, 0 < x.mtime) :
    (catOf listing = [] →
      cleanDeleted listing = 0 ∧ cleanSurvivors listing = listing) ∧
    (∀ e r, catOf listing = e :: r →
      catOf (cleanSurvivors listing) = [bestFold e r] ∧
      (∀ x ∈ catOf listing, x.mtime ≤ (bestFold e r).mtime) ∧
      cleanDeleted listing = (catOf listing).length - 1) := by
  constructor
  · intro hc
    have hz : ∀ x ∈ listing, isZipName x.name = false := by
      intro x hx
      cases hzx : isZipName x.name
      · rfl
      · exfalso
        have hxm : x ∈ catOf listing := List.mem_filter.mpr ⟨hx, hzx⟩
        rw [hc] at hxm
        simp at hxm
    constructor
    · unfold cleanDeleted
      rw [List.length_eq_zero, List.filter_eq_nil_iff]
      intro x hx
      simp [cleanRemoves, hz x hx]
    · unfold cleanSurvivors
      rw [List.filter_eq_self]
      intro x hx
      simp [cleanRemoves, hz x hx]
  · intro e r hc
    have hme : e ∈ catOf listing := by
      rw [hc]
      simp
    have hkept : cleanKeptName listing = (bestFold e r).name :=
      cleanKeptName_of_cat listing e r hc (hm e hme)
    have hmem : bestFold e r ∈ catOf listing := by
      rw [hc]
      exact bestFold_mem r e
    have hsurv : catOf (cleanSurvivors listing) =
        (catOf listing).filter (fun x => x.name == (bestFold e r).name) := by
      unfold catOf cleanSurvivors
      rw [List.filter_filter, List.filter_filter]
      apply List.filter_congr
      intro x _
      cases hz2 : isZipName x.name <;>
        cases hb : x.name == (bestFold e r).name <;>
        simp [cleanRemoves, hkept, hz2, hb, bne]
    have hdel : listing.filter (cleanRemoves listing) =
        (catOf listing).filter (fun x => !(x.name == (bestFold e r).name)) := by
      unfold catOf
      rw [List.filter_filter]
      apply List.filter_congr
      intro x _
      cases hz2 : isZipName x.name <;>
        cases hb : x.name == (bestFold e r).name <;>
        simp [cleanRemoves, hkept, hz2, hb, bne]
    have hone := filter_name_single (catOf listing) (bestFold e r) hn hmem
    refine ⟨?_, ?_, ?_⟩
    · rw [hsurv, hone]
    · intro x hx
      rw [hc] at hx
      rcases List.mem_cons.mp hx with h1 | h1
      · subst h1
        exact bestFold_base_le r x
      · exact bestFold_is_max r e x h1
    · have hsplit := length_filter_split
        (fun x => x.name == (bestFold e r).name) (catOf listing)
      rw [hone] at hsplit
      unfold cleanDeleted
      rw [hdel]
      simp only [List.length_cons, List.length_nil] at hsplit
      omega

/-- C6 witness: the clean-backup theorem at a three-file listing whose
catalog holds two archives. -/
theorem clean_backup_keeps_latest_witness :
    catOf (cleanSurvivors [⟨"a.zip", 3⟩, ⟨"notes.txt", 99⟩, ⟨"b.zip", 7⟩]) =
      [bestFold ⟨"a.zip", 3⟩ [⟨"b.zip", 7⟩]] ∧
    cleanDeleted [⟨"a.zip", 3⟩, ⟨"notes.txt", 99⟩, ⟨"b.zip", 7⟩] =
      (catOf [(⟨"a.zip", 3⟩ : DirEnt), ⟨"notes.txt", 99⟩, ⟨"b.zip", 7⟩]).length - 1 := by
  have h := (clean_backup_keeps_latest
    [⟨"a.zip", 3⟩, ⟨"notes.txt", 99⟩, ⟨"b.zip", 7⟩] (by decide) (by decide)).2
    ⟨"a.zip", 3⟩ [⟨"b.zip", 7⟩] (by decide)
  exact ⟨h.1, h.2.2⟩

/-- C7: purge-backup after confirmation deletes every catalog entry,
leaving a directory with no entry matching the archive extension, and
reports the starting catalog size as the number deleted. -/
theorem purge_all_removes_catalog (listing : List DirEnt) :
    runPurge true true listing = (purgeSurvivors listing, purgeCount listing) ∧
    catOf (purgeSurvivors listing) = [] ∧
    purgeCount listing = (catOf listing).length := by
  refine ⟨rfl, ?_, rfl⟩
  unfold catOf purgeSurvivors
  rw [List.filter_filter, List.filter_eq_nil_iff]
  intro x _
  by_cases h : isZipName x.name
  · simp [h]
  · simp [h]

/-- C8: restore against an empty catalog — whether the backup directory
is missing or merely holds no file matching the archive extension —
reports a not-found outcome and performs no filesystem mutation. -/
theorem restore_empty_catalog_noop (interactive : Bool) (listing : List DirEnt)
    (input : Option String) :
    handleRestore interactive true false listing input = (ROut.dirNotFound, []) ∧
    (enumFrom listing 0 = [] →
      handleRestore interactive true true listing input = (ROut.noBackups, [])) := by
  constructor
  · rfl
  · intro h
    simp [handleRestore, h]

/-- C8 witness: the empty-catalog theorem at a listing holding only a
non-archive file. -/
theorem restore_empty_catalog_noop_witness :
    handleRestore false true false [(⟨"readme.txt", 3⟩ : DirEnt)] none =
      (ROut.dirNotFound, []) ∧
    handleRestore false true true [(⟨"readme.txt", 3⟩ : DirEnt)] none =
      (ROut.noBackups, []) := by
  have h := restore_empty_catalog_noop false [⟨"readme.txt", 3⟩] none
  exact ⟨h.1, h.2 (by decide)⟩

/-- C9: interactive restore presents the catalog with 1-based indices;
the cancel token yields the Cancelled outcome, an out-of-range
selection yields the distinct InvalidSelection outcome, and neither
performs any extraction. -/
theorem restore_select_outcomes (listing : List DirEnt) (e : DirEnt)
    (r : List DirEnt) (s : String) (hc : enumFrom listing 0 = e :: r) :
    (presentList (e :: r)).map Prod.fst = List.range' 1 (e :: r).length ∧
    (headIsCancel s = true →
      handleRestore true true true listing (some s) = (ROut.cancelled, [])) ∧
    (headIsCancel s = false →
      (atoiS s < 1 ∨ atoiS s > ((e :: r).length : Int)) →
      handleRestore true true true listing (some s) = (ROut.invalidSelection, [])) ∧
    ROut.cancelled ≠ ROut.invalidSelection := by
  refine ⟨?_, ?_, ?_, by decide⟩
  · unfold presentList
    rw [presentLoop_fst]
  · intro h
    simp [handleRestore, hc, h]
  · intro h1 h2
    simp only [handleRestore, hc, Bool.not_true, Bool.false_eq_true, if_false,
      h1, if_true]
    rw [if_pos h2]

/-- C9 witness: the selection theorem at a one-entry catalog, once with
the cancel token and once with an out-of-range index. -/
theorem restore_select_outcomes_witness :
    handleRestore true true true [(⟨"b1.zip", 4⟩ : DirEnt)] (some "x") =
      (ROut.cancelled, []) ∧
    handleRestore true true true [(⟨"b1.zip", 4⟩ : DirEnt)] (some "9") =
      (ROut.invalidSelection, []) ∧
    (presentList [(⟨"b1.zip", 4⟩ : DirEnt)]).map Prod.fst = List.range' 1 1 := by
  have h1 := restore_select_outcomes [⟨"b1.zip", 4⟩] ⟨"b1.zip", 4⟩ [] "x"
    (by decide)
  have h2 := restore_select_outcomes [⟨"b1.zip", 4⟩] ⟨"b1.zip", 4⟩ [] "9"
    (by decide)
  exact ⟨h1.2.1 (by decide), h2.2.2.1 (by decide) (by decide), h1.1⟩

/-- C10: the catalog collection of restore and restore-select is
bounded: it records exactly the first 128 matching archive files of the
directory listing and never more, so later matches are silently
excluded. -/
theorem catalog_bounded_128 (listing : List DirEnt) :
    enumFrom listing 0 = (catOf listing).take 128 ∧
    (enumFrom listing 0).length ≤ 128 := by
  have h := enumFrom_eq_take listing 0
  simp only [Nat.sub_zero] at h
  refine ⟨h, ?_⟩
  rw [h]
  exact List.length_take_le 128 (catOf listing)

end Vrpm

